import Mathlib

/-!
Verification of the telefilebot change-detection and notification engines.

The definitions below are a shallow embedding of `telefilebot/directory.py`
and `telefilebot/bot.py`:

* a filesystem tree is modelled by `FSEntry`; `Path.suffix` of a file is
  carried as explicit metadata on the entry (the scan only ever reads it);
* a file's identity key (`str(x.relative_to(self._path))` in the source) is
  modelled canonically as the list of path components below the watch root;
* modification timestamps and clock instants are rationals;
* Python dicts keyed by paths are association lists with dict semantics
  (`dictLookup`, `dictInsert`, first-match lookup, in-place overwrite);
* `time.sleep(d)` is modelled as an exact advance of the clock by `d`.
-/

namespace Telefilebot

/-- A relative path below the watch root, as its list of components. -/
abbrev FPath := List String

/-- The `FileIndex`: relative path ↦ last observed modification time.
Models the Python dict `self._known_files`. -/
abbrev Snapshot := List (FPath × ℚ)

/-- A filesystem tree entry.  `suffix` models `pathlib.Path.suffix` of the
file's name (e.g. ".txt"); it is carried as metadata because the scan only
compares it against the extension list. -/
inductive FSEntry where
  | file (name : String) (suffix : String) (mtime : ℚ)
  | dir (name : String) (children : List FSEntry)

/-- Dict lookup: first entry with the given key, as in a Python dict. -/
def dictLookup (d : Snapshot) (k : FPath) : Option ℚ :=
  (d.find? (fun kv => kv.1 = k)).map (·.2)

/-- `k in d` for a modelled dict: some entry has key `k`. -/
def hasKeyB (d : Snapshot) (k : FPath) : Bool :=
  d.any (fun kv => kv.1 = k)

/-- Dict write `d[k] = v`: overwrite if the key is present, append otherwise. -/
def dictInsert (d : Snapshot) (k : FPath) (v : ℚ) : Snapshot :=
  if hasKeyB d k then
    d.map (fun kv => if kv.1 = k then (k, v) else kv)
  else
    d ++ [(k, v)]

/-- The keys of a modelled dict, in order. -/
def keysOf (d : Snapshot) : List FPath :=
  d.map Prod.fst

/-- `extension not in self._extensions` guard of `_descend_directory`:
a file is kept iff no filter is set or its suffix is a member. -/
def extOK (exts : Option (List String)) (suffix : String) : Bool :=
  match exts with
  | none => true
  | some es => es.contains suffix

/-- The descent guard of `_descend_directory`: a subdirectory reached at
`current_depth = d` is entered iff no recursion limit is set or
`d + 1 ≤ limit` (the source skips it when `current_depth + 1 > limit`). -/
def descendOK (rl : Option ℤ) (d : ℕ) : Bool :=
  match rl with
  | none => true
  | some l => (d : ℤ) + 1 ≤ l

/-- `Directory._descend_directory`: recursively collect the files below the
given entries, filtered by extension, descending into a subdirectory only
within the recursion limit.  Keys of entries found inside a subdirectory are
prefixed by the subdirectory name (the source keys by the path relative to
the watch root). -/
def descendDirectory (exts : Option (List String)) (rl : Option ℤ) :
    List FSEntry → ℕ → List (FPath × ℚ)
  | [], _ => []
  | .file name suffix mtime :: rest, d =>
      (if extOK exts suffix then [([name], mtime)] else [])
        ++ descendDirectory exts rl rest d
  | .dir name children :: rest, d =>
      (if descendOK rl d then
        (descendDirectory exts rl children (d + 1)).map
          (fun pt => (name :: pt.1, pt.2))
      else [])
        ++ descendDirectory exts rl rest d

/-- First phase of `Directory.check`: the `for k, v in new_listings.items()`
loop.  Walks the fresh scan in order, producing `modified` / `new` records
and updating the known-file dict as the source does. -/
def checkScan (known : Snapshot) : Snapshot → List (FPath × String) × Snapshot
  | [] => ([], known)
  | (k, v) :: rest =>
    match dictLookup known k with
    | some old =>
      if old < v then
        let r := checkScan (dictInsert known k v) rest
        ((k, "modified") :: r.1, r.2)
      else
        checkScan known rest
    | none =>
      let r := checkScan (dictInsert known k v) rest
      ((k, "new") :: r.1, r.2)

/-- `Directory.check` as a function of the stored index and the fresh scan:
returns the change records and the updated index.  The second phase emits
`deleted` for every known key absent from the scan and removes it. -/
def check (known : Snapshot) (scan : Snapshot) :
    List (FPath × String) × Snapshot :=
  let r := checkScan known scan
  let deletedKeys := (r.2.filter (fun kv => ! hasKeyB scan kv.1)).map (·.1)
  (r.1 ++ deletedKeys.map (fun k => (k, "deleted")),
   r.2.filter (fun kv => hasKeyB scan kv.1))

/-- The watcher state built by `Directory.__init__`. -/
structure DirectoryW where
  recursionLimit : Option ℤ
  extensions : Option (List String)
  knownFiles : Snapshot
deriving DecidableEq, Repr

/-- `Directory.__init__` on a filesystem tree: a negative recursion limit is
only logged (`log.error`), never raised, and the instance is constructed
with the limit exactly as given; the initial scan populates the index. -/
def DirectoryInit (tree : List FSEntry) (exts : Option (List String))
    (rl : Option ℤ) : DirectoryW :=
  { recursionLimit := rl
    extensions := exts
    knownFiles := descendDirectory exts rl tree 0 }

/-- `Directory.check` at the watcher level: scan the current tree under the
watcher's filters, diff against the stored index, update the index. -/
def DirectoryW.check (w : DirectoryW) (tree : List FSEntry) :
    List (FPath × String) × DirectoryW :=
  let scan := descendDirectory w.extensions w.recursionLimit tree 0
  let r := Telefilebot.check w.knownFiles scan
  (r.1, { w with knownFiles := r.2 })

/-- "The tree contains, `d` directory levels down, a file with relative
path `p`, suffix `s` and modification time `t`."  Used to state which files
of the filesystem a scan may report. -/
inductive FileEntryAtDepth : List FSEntry → ℕ → FPath → String → ℚ → Prop
  | file {entries : List FSEntry} {name suffix : String} {mtime : ℚ} :
      FSEntry.file name suffix mtime ∈ entries →
      FileEntryAtDepth entries 0 [name] suffix mtime
  | dir {entries : List FSEntry} {name : String} {children : List FSEntry}
      {d : ℕ} {p : FPath} {suffix : String} {mtime : ℚ} :
      FSEntry.dir name children ∈ entries →
      FileEntryAtDepth children d p suffix mtime →
      FileEntryAtDepth entries (d + 1) (name :: p) suffix mtime

/-! ### Notifier: rate limiting (`TeleFileBot._rate_limit_check`) -/

/-- `self._rate_limit_window = 1.0` seconds. -/
def rateLimitWindow : ℚ := 1

/-- `self._max_messages_per_window = 20`. -/
def maxMessagesPerWindow : ℕ := 20

/-- The prune step: drop every timestamp `ts` with `now - ts ≥ window`
(the source keeps `ts` iff `current_time - ts < self._rate_limit_window`). -/
def pruneWindow (now : ℚ) (ts : List ℚ) : List ℚ :=
  ts.filter (fun t => now - t < rateLimitWindow)

/-- `TeleFileBot._rate_limit_check` with an exact clock: prune, then if the
retained count has reached the cap, sleep until the oldest retained entry
exits the window (modelled as advancing `now` by exactly the sleep time) and
prune again; finally record the admission time.  Returns the admission
instant and the new timestamp list. -/
def rateLimitCheck (now : ℚ) (ts : List ℚ) : ℚ × List ℚ :=
  let ts1 := pruneWindow now ts
  if maxMessagesPerWindow ≤ ts1.length then
    let sleepTime := rateLimitWindow - (now - ts1.headD 0)
    if 0 < sleepTime then
      let now2 := now + sleepTime
      let ts2 := pruneWindow now2 ts1
      (now2, ts2 ++ [now2])
    else
      (now, ts1 ++ [now])
  else
    (now, ts1 ++ [now])

/-! ### Notifier: send with retries (`TeleFileBot._speak`) -/

/-- Outcome of one `bot.send_message` attempt, as the source's exception
handlers distinguish them. -/
inductive SendOutcome where
  | success
  | retryAfter (n : ℚ)
  | timedOut
  | networkError
  | telegramError
  | otherError
deriving DecidableEq, Repr

/-- `TimedOut` and `NetworkError` are caught by the same handler. -/
def SendOutcome.isTransient : SendOutcome → Bool
  | .timedOut => true
  | .networkError => true
  | _ => false

/-- How one `_speak` call ends: the message was delivered, an exception was
raised to the caller, or the retry loop ran out and the function returned
with neither a delivery nor an exception. -/
inductive SpeakResult where
  | delivered
  | raised
  | exhausted
deriving DecidableEq, Repr

/-- Observable trace of one `_speak` call: how it ended, how many
deliveries happened, how many send attempts were made, and the sleeps
performed between attempts, in order. -/
structure SpeakTrace where
  result : SpeakResult
  deliveries : ℕ
  attempts : ℕ
  sleeps : List ℚ
deriving DecidableEq, Repr

/-- `max_retries = 3` in `_speak`. -/
def maxRetries : ℕ := 3

/-- The body of `_speak`'s `for attempt in range(max_retries)` loop, with
`fuel` the number of loop iterations left (`max_retries - attempt`).
`outcomes i` is what the `i`-th send attempt does.  On `RetryAfter n` the
handler sleeps `n` and the loop moves to the next attempt; on a transient
error before the last attempt it sleeps the current backoff delay and
doubles it, on the last attempt it re-raises; `TelegramError` and any other
exception are raised immediately; running the loop to completion falls
through and returns nothing. -/
def speakGo (outcomes : ℕ → SendOutcome) :
    ℕ → ℕ → ℚ → SpeakTrace
  | 0, _, _ => ⟨.exhausted, 0, 0, []⟩
  | fuel + 1, attempt, retryDelay =>
    match outcomes attempt with
    | .success => ⟨.delivered, 1, 1, []⟩
    | .retryAfter n =>
      let t := speakGo outcomes fuel (attempt + 1) retryDelay
      ⟨t.result, t.deliveries, t.attempts + 1, n :: t.sleeps⟩
    | .timedOut =>
      if attempt < maxRetries - 1 then
        let t := speakGo outcomes fuel (attempt + 1) (retryDelay * 2)
        ⟨t.result, t.deliveries, t.attempts + 1, retryDelay :: t.sleeps⟩
      else ⟨.raised, 0, 1, []⟩
    | .networkError =>
      if attempt < maxRetries - 1 then
        let t := speakGo outcomes fuel (attempt + 1) (retryDelay * 2)
        ⟨t.result, t.deliveries, t.attempts + 1, retryDelay :: t.sleeps⟩
      else ⟨.raised, 0, 1, []⟩
    | .telegramError => ⟨.raised, 0, 1, []⟩
    | .otherError => ⟨.raised, 0, 1, []⟩

/-- `TeleFileBot._speak` for one logical send: run the retry loop with
`max_retries = 3` starting at attempt 0 with `retry_delay = 1`. -/
def speak (outcomes : ℕ → SendOutcome) : SpeakTrace :=
  speakGo outcomes maxRetries 0 1

/-! ### Notification composer (`TeleFileBot._check_directories`, message
building, and `_escape_markdown_v2`) -/

/-- The characters `_escape_markdown_v2` escapes, in source order. -/
def specialChars : List Char :=
  ['_', '*', '[', ']', '(', ')', '~', Char.ofNat 96, '>', '#', '+', '-',
   '=', '|', '\x7b', '\x7d', '.', '!']

/-- One `text.replace(char, "\\" + char)` pass at the character level (each
replaced pattern is a single character, so the string replacement is exactly
this per-character rewrite). -/
def escapeChar (c : Char) (s : List Char) : List Char :=
  s.foldr (fun x acc => if x = c then '\\' :: x :: acc else x :: acc) []

/-- `TeleFileBot._escape_markdown_v2`: apply the replacement passes in
source order. -/
def escapeMarkdownV2 (text : String) : String :=
  ⟨specialChars.foldl (fun s c => escapeChar c s) text.data⟩

/-- A backtick, as a string. -/
def btick : String := (Char.ofNat 96).toString

/-- One rendered path line: four spaces and the escaped path in backticks. -/
def fileLine (filepath : String) : String :=
  "    " ++ btick ++ escapeMarkdownV2 filepath ++ btick

/-- The divider line of the message. -/
def divider : String := String.join (List.replicate 20 "━")

/-- The message-building half of `_check_directories`: from the aggregated
`(filepath, change_type)` list, produce the `msg_parts` list, or `None` when
there are no changes (`if all_changes:` guard).  Records whose change type
is not one of the three kinds are counted in the header total but rendered
in no group, exactly as the source's `if/elif` chain does. -/
def composeParts (name : String) (allChanges : List (String × String)) :
    Option (List String) :=
  if allChanges = [] then none
  else
    let newFiles := (allChanges.filter (fun pc => pc.2 = "new")).map
      (fun pc => fileLine pc.1)
    let modifiedFiles := (allChanges.filter (fun pc => pc.2 = "modified")).map
      (fun pc => fileLine pc.1)
    let deletedFiles := (allChanges.filter (fun pc => pc.2 = "deleted")).map
      (fun pc => fileLine pc.1)
    let totalChanges := allChanges.length
    let header := "📁 *" ++ escapeMarkdownV2 name ++ "* detected "
      ++ toString totalChanges ++ " change"
      ++ (if 1 < totalChanges then "s" else "")
    let parts := [header, divider]
      ++ (if newFiles ≠ [] then
            ["✨ *New* \\(" ++ toString newFiles.length ++ "\\)\n"
              ++ String.intercalate "\n" newFiles]
          else [])
      ++ (if modifiedFiles ≠ [] then
            ["📝 *Modified* \\(" ++ toString modifiedFiles.length ++ "\\)\n"
              ++ String.intercalate "\n" modifiedFiles]
          else [])
      ++ (if deletedFiles ≠ [] then
            ["🗑 *Deleted* \\(" ++ toString deletedFiles.length ++ "\\)\n"
              ++ String.intercalate "\n" deletedFiles]
          else [])
    some parts

/-- The final message text: `"\n\n".join(msg_parts)`. -/
def composeMessage (name : String) (allChanges : List (String × String)) :
    Option String :=
  (composeParts name allChanges).map (String.intercalate "\n\n")

/-! ### Watcher set coordinator (`TeleFileBot._check_directories`) -/

/-- Render a model path the way the source's dict keys render
(`str(x.relative_to(self._path))`). -/
def renderPath (p : FPath) : String := String.intercalate "/" p

/-- `TeleFileBot._check_directories` over a list of watchers paired with the
trees they currently see.  `ThreadPoolExecutor` is constructed with
`max_workers = min(len(self._directories), 5)` and, per the Python standard
library, raises `ValueError` when `max_workers <= 0`; otherwise every
watcher is checked, all changes are aggregated, and the batched message (if
any) is composed. -/
def checkDirectories (name : String)
    (dirs : List (DirectoryW × List FSEntry)) :
    Except String (List DirectoryW × Option String) :=
  if min dirs.length 5 ≤ 0 then
    Except.error "ValueError: max_workers must be greater than 0"
  else
    let results := dirs.map (fun wt => wt.1.check wt.2)
    let allChanges := (results.map (fun r =>
      r.1.map (fun pc => (renderPath pc.1, pc.2)))).flatten
    Except.ok (results.map (·.2), composeMessage name allChanges)

/-! ### Dictionary lemmas -/

theorem dictLookup_nil (q : FPath) : dictLookup [] q = none := rfl

theorem dictLookup_cons (a : FPath × ℚ) (t : Snapshot) (q : FPath) :
    dictLookup (a :: t) q =
      if a.1 = q then some a.2 else dictLookup t q := by
  by_cases h : a.1 = q <;> simp [dictLookup, List.find?_cons, h]

theorem mem_keysOf {d : Snapshot} {k : FPath} :
    k ∈ keysOf d ↔ ∃ v, (k, v) ∈ d := by
  simp only [keysOf, List.mem_map]
  constructor
  · rintro ⟨⟨k1, v1⟩, h, rfl⟩
    exact ⟨v1, h⟩
  · rintro ⟨v, hv⟩
    exact ⟨(k, v), hv, rfl⟩

theorem hasKeyB_iff {d : Snapshot} {k : FPath} :
    hasKeyB d k = true ↔ k ∈ keysOf d := by
  simp only [hasKeyB, List.any_eq_true, decide_eq_true_eq, keysOf,
    List.mem_map]

theorem dictLookup_eq_none_iff {d : Snapshot} {k : FPath} :
    dictLookup d k = none ↔ k ∉ keysOf d := by
  simp only [dictLookup, Option.map_eq_none', List.find?_eq_none,
    decide_eq_true_eq, keysOf, List.mem_map]
  constructor
  · rintro h ⟨⟨k1, v1⟩, hmem, rfl⟩
    exact h _ hmem rfl
  · intro h x hx hk
    exact h ⟨x, hx, hk⟩

theorem dictLookup_mem {d : Snapshot} {k : FPath} {v : ℚ}
    (h : dictLookup d k = some v) : (k, v) ∈ d := by
  simp only [dictLookup, Option.map_eq_some'] at h
  rcases h with ⟨kv, hfind, hv⟩
  have hmem := List.mem_of_find?_eq_some hfind
  have hk := List.find?_some hfind
  simp only [decide_eq_true_eq] at hk
  obtain ⟨k1, v1⟩ := kv
  simp only at hk hv
  subst hk hv
  exact hmem

theorem dictLookup_isSome_iff {d : Snapshot} {k : FPath} :
    (dictLookup d k).isSome = true ↔ k ∈ keysOf d := by
  cases h : dictLookup d k with
  | none =>
    simp only [Option.isSome_none, Bool.false_eq_true, false_iff]
    exact dictLookup_eq_none_iff.mp h
  | some v =>
    simp only [Option.isSome_some, true_iff]
    exact mem_keysOf.mpr ⟨v, dictLookup_mem h⟩

theorem dictLookup_map_replace_ne {t : Snapshot} {k : FPath} {v : ℚ}
    {q : FPath} (hq : ¬ q = k) :
    dictLookup (t.map (fun kv => if kv.1 = k then (k, v) else kv)) q =
      dictLookup t q := by
  induction t with
  | nil => rfl
  | cons a t ih =>
    by_cases hak : a.1 = k
    · simp only [List.map_cons, if_pos hak, dictLookup_cons]
      have h1 : ¬ ((k, v).1 = q) := fun h => hq (Eq.symm h)
      have h2 : ¬ (a.1 = q) := by rw [hak]; exact fun h => hq h.symm
      rw [if_neg h1, if_neg h2, ih]
    · simp only [List.map_cons, if_neg hak, dictLookup_cons]
      by_cases haq : a.1 = q
      · rw [if_pos haq, if_pos haq]
      · rw [if_neg haq, if_neg haq, ih]

theorem dictLookup_map_replace_self {t : Snapshot} {k : FPath} {v : ℚ}
    (h : k ∈ keysOf t) :
    dictLookup (t.map (fun kv => if kv.1 = k then (k, v) else kv)) k =
      some v := by
  induction t with
  | nil => simp [keysOf] at h
  | cons a t ih =>
    by_cases hak : a.1 = k
    · simp [List.map_cons, if_pos hak, dictLookup_cons]
    · simp only [List.map_cons, if_neg hak, dictLookup_cons, hak, if_false]
      apply ih
      simp only [keysOf, List.map_cons, List.mem_cons] at h
      rcases h with h | h
      · exact absurd h.symm hak
      · exact h

theorem dictLookup_insert (d : Snapshot) (k : FPath) (v : ℚ) (q : FPath) :
    dictLookup (dictInsert d k v) q =
      if q = k then some v else dictLookup d q := by
  unfold dictInsert
  by_cases hk : hasKeyB d k = true
  · rw [if_pos hk]
    by_cases hq : q = k
    · subst hq
      rw [if_pos rfl]
      exact dictLookup_map_replace_self (hasKeyB_iff.mp hk)
    · rw [if_neg hq]
      exact dictLookup_map_replace_ne hq
  · rw [if_neg hk]
    have hknd : k ∉ keysOf d := fun hmem => hk (hasKeyB_iff.mpr hmem)
    by_cases hq : q = k
    · subst hq
      rw [if_pos rfl]
      have hnone : dictLookup d q = none := dictLookup_eq_none_iff.mpr hknd
      simp only [dictLookup, Option.map_eq_none'] at hnone
      simp [dictLookup, List.find?_append, hnone, List.find?_cons]
    · rw [if_neg hq]
      have hne : ¬ (k = q) := fun h => hq h.symm
      simp only [dictLookup, List.find?_append, List.find?_cons, hne,
        decide_False]
      cases hfind : d.find? (fun kv => decide (kv.1 = q)) with
      | none => simp [hne]
      | some kv => simp

theorem dictLookup_filter_key (d : Snapshot) (pr : FPath → Bool) (q : FPath) :
    dictLookup (d.filter (fun kv => pr kv.1)) q =
      if pr q then dictLookup d q else none := by
  induction d with
  | nil => simp [dictLookup]
  | cons a t ih =>
    rw [List.filter_cons]
    by_cases hpa : pr a.1 = true
    · rw [if_pos hpa, dictLookup_cons, dictLookup_cons]
      by_cases haq : a.1 = q
      · rw [if_pos haq, if_pos (haq ▸ hpa), if_pos haq]
      · rw [if_neg haq, if_neg haq, ih]
    · rw [if_neg hpa, ih, dictLookup_cons]
      by_cases haq : a.1 = q
      · have : pr q = false := by
          rw [← haq]
          exact Bool.not_eq_true _ ▸ hpa
        rw [this]
        simp
      · rw [if_neg haq]

/-! ### Characterization of `Directory.check` -/

theorem keysOf_cons (a : FPath × ℚ) (t : Snapshot) :
    keysOf (a :: t) = a.1 :: keysOf t := rfl

theorem checkScan_snd_of_not_mem {scan : Snapshot} {q : FPath}
    (hq : q ∉ keysOf scan) :
    ∀ known, dictLookup (checkScan known scan).2 q = dictLookup known q := by
  induction scan with
  | nil => intro known; rfl
  | cons a rest ih =>
    intro known
    obtain ⟨k, v⟩ := a
    rw [keysOf_cons, List.mem_cons] at hq
    push_neg at hq
    obtain ⟨hqk, hrest⟩ := hq
    cases h : dictLookup known k with
    | some old =>
      by_cases hov : old < v
      · simp only [checkScan, h, if_pos hov]
        rw [ih hrest, dictLookup_insert, if_neg hqk]
      · simp only [checkScan, h, if_neg hov]
        exact ih hrest known
    | none =>
      simp only [checkScan, h]
      rw [ih hrest, dictLookup_insert, if_neg hqk]

theorem checkScan_fst_of_not_mem {scan : Snapshot} {q : FPath}
    (hq : q ∉ keysOf scan) :
    ∀ known c, (q, c) ∉ (checkScan known scan).1 := by
  induction scan with
  | nil => intro known c h; exact List.not_mem_nil _ h
  | cons a rest ih =>
    intro known c hmem
    obtain ⟨k, v⟩ := a
    rw [keysOf_cons, List.mem_cons] at hq
    push_neg at hq
    obtain ⟨hqk, hrest⟩ := hq
    cases h : dictLookup known k with
    | some old =>
      by_cases hov : old < v
      · simp only [checkScan, h, if_pos hov, List.mem_cons] at hmem
        rcases hmem with hmem | hmem
        · exact hqk (congrArg Prod.fst hmem)
        · exact ih hrest _ c hmem
      · simp only [checkScan, h, if_neg hov] at hmem
        exact ih hrest _ c hmem
    | none =>
      simp only [checkScan, h, List.mem_cons] at hmem
      rcases hmem with hmem | hmem
      · exact hqk (congrArg Prod.fst hmem)
      · exact ih hrest _ c hmem

theorem checkScan_fst_iff {scan : Snapshot}
    (hscan : (keysOf scan).Nodup) :
    ∀ known (q : FPath) (c : String),
      (q, c) ∈ (checkScan known scan).1 ↔
        ∃ v, dictLookup scan q = some v ∧
          ((dictLookup known q = none ∧ c = "new") ∨
           (∃ old, dictLookup known q = some old ∧ old < v ∧
             c = "modified")) := by
  induction scan with
  | nil =>
    intro known q c
    simp [checkScan, dictLookup_nil]
  | cons a rest ih =>
    intro known q c
    obtain ⟨k, v⟩ := a
    rw [keysOf_cons, List.nodup_cons] at hscan
    obtain ⟨hk, hnd⟩ := hscan
    by_cases hqk : q = k
    · subst hqk
      rw [dictLookup_cons, if_pos rfl]
      cases h : dictLookup known q with
      | some old =>
        by_cases hov : old < v
        · simp only [checkScan, h, if_pos hov, List.mem_cons]
          constructor
          · rintro (hmem | hmem)
            · exact ⟨v, rfl, Or.inr ⟨old, rfl, hov,
                (Prod.mk.injEq _ _ _ _ ▸ hmem).2⟩⟩
            · exact absurd hmem (checkScan_fst_of_not_mem hk _ c)
          · rintro ⟨v', hv', hrest⟩
            obtain rfl : v = v' := by injection hv'
            rcases hrest with ⟨hnone, _⟩ | ⟨old', hold', _, hc⟩
            · exact absurd hnone (by simp)
            · exact Or.inl (by rw [hc])
        · simp only [checkScan, h, if_neg hov]
          constructor
          · intro hmem
            exact absurd hmem (checkScan_fst_of_not_mem hk _ c)
          · rintro ⟨v', hv', hrest⟩
            obtain rfl : v = v' := by injection hv'
            rcases hrest with ⟨hnone, _⟩ | ⟨old', hold', hlt, _⟩
            · exact absurd hnone (by simp)
            · obtain rfl : old = old' := by injection hold'
              exact absurd hlt hov
      | none =>
        simp only [checkScan, h, List.mem_cons]
        constructor
        · rintro (hmem | hmem)
          · exact ⟨v, rfl, Or.inl ⟨trivial, (Prod.mk.injEq _ _ _ _ ▸ hmem).2⟩⟩
          · exact absurd hmem (checkScan_fst_of_not_mem hk _ c)
        · rintro ⟨v', hv', hrest⟩
          rcases hrest with ⟨_, hc⟩ | ⟨old', hold', _, _⟩
          · exact Or.inl (by rw [hc])
          · exact absurd hold' (by simp)
    · rw [dictLookup_cons]
      have hkq : ¬ ((k, v).1 = q) := fun h => hqk (Eq.symm h)
      rw [if_neg hkq]
      cases h : dictLookup known k with
      | some old =>
        by_cases hov : old < v
        · simp only [checkScan, h, if_pos hov, List.mem_cons]
          rw [ih hnd (dictInsert known k v) q c]
          rw [dictLookup_insert, if_neg hqk]
          constructor
          · rintro (hmem | hmem)
            · exact absurd (congrArg Prod.fst hmem) hqk
            · exact hmem
          · exact Or.inr
        · simp only [checkScan, h, if_neg hov]
          exact ih hnd known q c
      | none =>
        simp only [checkScan, h, List.mem_cons]
        rw [ih hnd (dictInsert known k v) q c]
        rw [dictLookup_insert, if_neg hqk]
        constructor
        · rintro (hmem | hmem)
          · exact absurd (congrArg Prod.fst hmem) hqk
          · exact hmem
        · exact Or.inr

theorem checkScan_snd_lookup {scan : Snapshot}
    (hscan : (keysOf scan).Nodup) :
    ∀ known (q : FPath),
      dictLookup (checkScan known scan).2 q =
        match dictLookup scan q, dictLookup known q with
        | some v, some old => some (max old v)
        | some v, none => some v
        | none, o => o := by
  induction scan with
  | nil =>
    intro known q
    cases h : dictLookup known q <;> simp [checkScan, dictLookup_nil, h]
  | cons a rest ih =>
    intro known q
    obtain ⟨k, v⟩ := a
    rw [keysOf_cons, List.nodup_cons] at hscan
    obtain ⟨hk, hnd⟩ := hscan
    by_cases hqk : q = k
    · subst hqk
      rw [dictLookup_cons, if_pos rfl]
      cases h : dictLookup known q with
      | some old =>
        by_cases hov : old < v
        · simp only [checkScan, h, if_pos hov]
          rw [checkScan_snd_of_not_mem hk, dictLookup_insert, if_pos rfl]
          simp [max_eq_right (le_of_lt hov)]
        · simp only [checkScan, h, if_neg hov]
          rw [checkScan_snd_of_not_mem hk, h]
          simp [max_eq_left (le_of_not_lt hov)]
      | none =>
        simp only [checkScan, h]
        rw [checkScan_snd_of_not_mem hk, dictLookup_insert, if_pos rfl]
    · rw [dictLookup_cons]
      have hkq : ¬ ((k, v).1 = q) := fun h => hqk (Eq.symm h)
      rw [if_neg hkq]
      cases h : dictLookup known k with
      | some old =>
        by_cases hov : old < v
        · simp only [checkScan, h, if_pos hov]
          rw [ih hnd, dictLookup_insert, if_neg hqk]
        · simp only [checkScan, h, if_neg hov]
          exact ih hnd known q
      | none =>
        simp only [checkScan, h]
        rw [ih hnd, dictLookup_insert, if_neg hqk]

theorem check_snd_lookup {scan : Snapshot}
    (hscan : (keysOf scan).Nodup) (known : Snapshot) (q : FPath) :
    dictLookup (check known scan).2 q =
      match dictLookup scan q, dictLookup known q with
      | some v, some old => some (max old v)
      | some v, none => some v
      | none, _ => none := by
  unfold check
  simp only
  rw [dictLookup_filter_key (checkScan known scan).2 (fun k => hasKeyB scan k) q]
  by_cases hq : hasKeyB scan q = true
  · rw [if_pos hq]
    rw [checkScan_snd_lookup hscan]
    have : q ∈ keysOf scan := hasKeyB_iff.mp hq
    have hs : (dictLookup scan q).isSome = true := dictLookup_isSome_iff.mpr this
    cases h : dictLookup scan q with
    | none => rw [h] at hs; exact absurd hs (by simp)
    | some v => cases dictLookup known q <;> rfl
  · rw [if_neg hq]
    have : q ∉ keysOf scan := fun hmem => hq (hasKeyB_iff.mpr hmem)
    rw [dictLookup_eq_none_iff.mpr this]

theorem check_fst_iff {scan : Snapshot}
    (hscan : (keysOf scan).Nodup) (known : Snapshot) (q : FPath)
    (c : String) :
    (q, c) ∈ (check known scan).1 ↔
      ((∃ v, dictLookup scan q = some v) ∧ dictLookup known q = none ∧
        c = "new") ∨
      ((∃ v old, dictLookup scan q = some v ∧
        dictLookup known q = some old ∧ old < v) ∧ c = "modified") ∨
      (dictLookup scan q = none ∧ (∃ old, dictLookup known q = some old) ∧
        c = "deleted") := by
  unfold check
  simp only [List.mem_append]
  rw [checkScan_fst_iff hscan known q c]
  have hdel : (q, c) ∈ ((((checkScan known scan).2.filter
      (fun kv => ! hasKeyB scan kv.1)).map (·.1)).map
        (fun k => (k, "deleted"))) ↔
      c = "deleted" ∧ dictLookup scan q = none ∧
        (∃ old, dictLookup known q = some old) := by
    simp only [List.mem_map]
    constructor
    · rintro ⟨k', ⟨⟨kk, vv⟩, hmem, hfst⟩, heq⟩
      injection heq with h1 h2
      simp only at hfst
      have hkkq : kk = q := hfst.trans h1
      subst hkkq
      rw [List.mem_filter] at hmem
      obtain ⟨hmem2, hnk⟩ := hmem
      simp only at hnk
      have hqscan : kk ∉ keysOf scan := by
        intro hmem3
        rw [hasKeyB_iff.mpr hmem3] at hnk
        exact absurd hnk (by simp)
      refine ⟨h2.symm, dictLookup_eq_none_iff.mpr hqscan, ?_⟩
      have hkey : kk ∈ keysOf (checkScan known scan).2 :=
        mem_keysOf.mpr ⟨vv, hmem2⟩
      have hs := dictLookup_isSome_iff.mpr hkey
      rw [checkScan_snd_lookup hscan, dictLookup_eq_none_iff.mpr hqscan] at hs
      cases h : dictLookup known kk with
      | none => rw [h] at hs; exact absurd hs (by simp)
      | some old => exact ⟨old, rfl⟩
    · rintro ⟨rfl, hnone, old, hold⟩
      have hqscan : q ∉ keysOf scan := dictLookup_eq_none_iff.mp hnone
      have hlk : dictLookup (checkScan known scan).2 q = some old := by
        rw [checkScan_snd_of_not_mem hqscan, hold]
      have hmem : (q, old) ∈ (checkScan known scan).2 := dictLookup_mem hlk
      refine ⟨q, ⟨(q, old), ?_, rfl⟩, rfl⟩
      rw [List.mem_filter]
      refine ⟨hmem, ?_⟩
      have hfalse : hasKeyB scan q = false := by
        cases hh : hasKeyB scan q
        · rfl
        · exact absurd (hasKeyB_iff.mp hh) hqscan
      simp [hfalse]
  rw [hdel]
  constructor
  · rintro (⟨v, hv, ⟨hnone, hc⟩ | ⟨old, hold, hlt, hc⟩⟩ | ⟨hc, hnone, hold⟩)
    · exact Or.inl ⟨⟨v, hv⟩, hnone, hc⟩
    · exact Or.inr (Or.inl ⟨⟨v, old, hv, hold, hlt⟩, hc⟩)
    · exact Or.inr (Or.inr ⟨hnone, hold, hc⟩)
  · rintro (⟨⟨v, hv⟩, hnone, hc⟩ | ⟨⟨v, old, hv, hold, hlt⟩, hc⟩ |
      ⟨hnone, hold, hc⟩)
    · exact Or.inl ⟨v, hv, Or.inl ⟨hnone, hc⟩⟩
    · exact Or.inl ⟨v, hv, Or.inr ⟨old, hold, hlt, hc⟩⟩
    · exact Or.inr ⟨hc, hnone, hold⟩

theorem check_twice {scan : Snapshot}
    (hscan : (keysOf scan).Nodup) (known : Snapshot) :
    (check (check known scan).2 scan).1 = [] := by
  rw [List.eq_nil_iff_forall_not_mem]
  rintro ⟨q, c⟩ hmem
  rw [check_fst_iff hscan _ q c] at hmem
  rcases hmem with ⟨⟨v, hv⟩, hnone, _⟩ | ⟨⟨v, old, hv, hold, hlt⟩, _⟩ |
    ⟨hnone, ⟨old, hold⟩, _⟩
  · rw [check_snd_lookup hscan, hv] at hnone
    cases h : dictLookup known q with
    | none => rw [h] at hnone; exact absurd hnone (by simp)
    | some o => rw [h] at hnone; exact absurd hnone (by simp)
  · rw [check_snd_lookup hscan, hv] at hold
    cases h : dictLookup known q with
    | none =>
      rw [h] at hold
      obtain rfl : v = old := by injection hold
      exact absurd hlt (lt_irrefl v)
    | some o =>
      rw [h] at hold
      obtain rfl : max o v = old := by injection hold
      exact absurd hlt (not_lt_of_le (le_max_right o v))
  · rw [check_snd_lookup hscan, hnone] at hold
    exact absurd hold (by simp)

/-! ### Characterization of `_descend_directory` -/

theorem FileEntryAtDepth.cons {e : FSEntry} {entries : List FSEntry}
    {d : ℕ} {p : FPath} {s : String} {t : ℚ}
    (h : FileEntryAtDepth entries d p s t) :
    FileEntryAtDepth (e :: entries) d p s t := by
  cases h with
  | file hmem => exact .file (List.mem_cons_of_mem _ hmem)
  | dir hmem hrec => exact .dir (List.mem_cons_of_mem _ hmem) hrec

theorem FileEntryAtDepth.length_eq {entries : List FSEntry} {d : ℕ}
    {p : FPath} {s : String} {t : ℚ}
    (h : FileEntryAtDepth entries d p s t) : p.length = d + 1 := by
  induction h with
  | file _ => rfl
  | dir _ _ ih => simp [List.length_cons, ih]

theorem descend_sound (exts : Option (List String)) (rl : Option ℤ) :
    ∀ (entries : List FSEntry) (d : ℕ) (p : FPath) (t : ℚ),
      (p, t) ∈ descendDirectory exts rl entries d →
      ∃ s d', FileEntryAtDepth entries d' p s t ∧ extOK exts s = true ∧
        ∀ l, rl = some l → d' = 0 ∨ (d : ℤ) + d' ≤ l
  | [], _, _, _, h => by simp [descendDirectory] at h
  | .file name suffix mtime :: rest, d, p, t, h => by
    rw [descendDirectory] at h
    rcases List.mem_append.mp h with hl | hr
    · by_cases hext : extOK exts suffix = true
      · rw [if_pos hext] at hl
        rcases List.mem_singleton.mp hl with hpt
        obtain ⟨rfl, rfl⟩ : p = [name] ∧ t = mtime := by
          exact ⟨congrArg Prod.fst hpt, congrArg Prod.snd hpt⟩
        exact ⟨suffix, 0, .file (List.mem_cons_self _ _), hext,
          fun l _ => Or.inl rfl⟩
      · rw [if_neg hext] at hl
        exact absurd hl (List.not_mem_nil _)
    · obtain ⟨s, d', hrel, hext, hbound⟩ :=
        descend_sound exts rl rest d p t hr
      exact ⟨s, d', hrel.cons, hext, hbound⟩
  | .dir name children :: rest, d, p, t, h => by
    rw [descendDirectory] at h
    rcases List.mem_append.mp h with hl | hr
    · by_cases hok : descendOK rl d = true
      · rw [if_pos hok] at hl
        rcases List.mem_map.mp hl with ⟨⟨p0, t0⟩, hmem0, heq⟩
        obtain ⟨rfl, rfl⟩ : p = name :: p0 ∧ t = t0 := by
          exact ⟨(congrArg Prod.fst heq).symm, (congrArg Prod.snd heq).symm⟩
        obtain ⟨s, d', hrel, hext, hbound⟩ :=
          descend_sound exts rl children (d + 1) p0 t hmem0
        refine ⟨s, d' + 1, .dir (List.mem_cons_self _ _) hrel, hext, ?_⟩
        intro l hrl
        refine Or.inr ?_
        rcases hbound l hrl with hd0 | hb
        · subst hd0
          have : ((d : ℤ) + 1 ≤ l) := by
            rw [hrl] at hok
            simpa [descendOK] using hok
          push_cast
          omega
        · push_cast at hb ⊢
          omega
      · rw [if_neg hok] at hl
        exact absurd hl (List.not_mem_nil _)
    · obtain ⟨s, d', hrel, hext, hbound⟩ :=
        descend_sound exts rl rest d p t hr
      exact ⟨s, d', hrel.cons, hext, hbound⟩

theorem mem_descend_of_mem_file {exts : Option (List String)} {rl : Option ℤ}
    {entries : List FSEntry} {name suffix : String} {mtime : ℚ}
    (hmem : FSEntry.file name suffix mtime ∈ entries)
    (hext : extOK exts suffix = true) :
    ∀ d, ([name], mtime) ∈ descendDirectory exts rl entries d := by
  induction entries with
  | nil => cases hmem
  | cons e rest ih =>
    intro d
    rcases List.mem_cons.mp hmem with rfl | hmem2
    · rw [descendDirectory, if_pos hext]
      exact List.mem_append_left _ (List.mem_singleton.mpr rfl)
    · cases e with
      | file n s m =>
        rw [descendDirectory]
        exact List.mem_append_right _ (ih hmem2 d)
      | dir n c =>
        rw [descendDirectory]
        exact List.mem_append_right _ (ih hmem2 d)

theorem mem_descend_of_mem_dir {exts : Option (List String)} {rl : Option ℤ}
    {entries : List FSEntry} {name : String} {children : List FSEntry}
    {p : FPath} {t : ℚ}
    (hmem : FSEntry.dir name children ∈ entries) :
    ∀ d, descendOK rl d = true →
      (p, t) ∈ descendDirectory exts rl children (d + 1) →
      (name :: p, t) ∈ descendDirectory exts rl entries d := by
  induction entries with
  | nil => cases hmem
  | cons e rest ih =>
    intro d hok hsub
    rcases List.mem_cons.mp hmem with rfl | hmem2
    · rw [descendDirectory, if_pos hok]
      exact List.mem_append_left _ (List.mem_map.mpr ⟨(p, t), hsub, rfl⟩)
    · cases e with
      | file n s m =>
        rw [descendDirectory]
        exact List.mem_append_right _ (ih hmem2 d hok hsub)
      | dir n c =>
        rw [descendDirectory]
        exact List.mem_append_right _ (ih hmem2 d hok hsub)

theorem descend_complete {exts : Option (List String)} {rl : Option ℤ}
    {entries : List FSEntry} {d' : ℕ} {p : FPath} {s : String} {t : ℚ}
    (hrel : FileEntryAtDepth entries d' p s t) :
    extOK exts s = true →
    ∀ d : ℕ, (∀ l, rl = some l → d' = 0 ∨ (d : ℤ) + d' ≤ l) →
      (p, t) ∈ descendDirectory exts rl entries d := by
  induction hrel with
  | file hmem =>
    intro hext d _
    exact mem_descend_of_mem_file hmem hext d
  | dir hmemd hrec ih =>
    intro hext d hb
    have hok : descendOK rl d = true := by
      cases rl with
      | none => rfl
      | some l =>
        rcases hb l rfl with h0 | hbound
        · exact absurd h0 (Nat.succ_ne_zero _)
        · simp only [descendOK, decide_eq_true_eq]
          push_cast at hbound ⊢
          omega
    refine mem_descend_of_mem_dir hmemd d hok (ih hext (d + 1) ?_)
    intro l hrl
    rcases hb l hrl with h0 | hbound
    · exact absurd h0 (Nat.succ_ne_zero _)
    · refine Or.inr ?_
      push_cast at hbound ⊢
      omega

theorem checkScan_fst_key_mem {scan known : Snapshot} {q : FPath}
    {c : String} (h : (q, c) ∈ (checkScan known scan).1) :
    q ∈ keysOf scan := by
  induction scan generalizing known with
  | nil => exact absurd h (List.not_mem_nil _)
  | cons a rest ih =>
    obtain ⟨k, v⟩ := a
    rw [keysOf_cons]
    cases hl : dictLookup known k with
    | some old =>
      by_cases hov : old < v
      · simp only [checkScan, hl, if_pos hov, List.mem_cons] at h
        rcases h with h | h
        · exact List.mem_cons.mpr (Or.inl (congrArg Prod.fst h))
        · exact List.mem_cons.mpr (Or.inr (ih h))
      · simp only [checkScan, hl, if_neg hov] at h
        exact List.mem_cons.mpr (Or.inr (ih h))
    | none =>
      simp only [checkScan, hl, List.mem_cons] at h
      rcases h with h | h
      · exact List.mem_cons.mpr (Or.inl (congrArg Prod.fst h))
      · exact List.mem_cons.mpr (Or.inr (ih h))

theorem mem_keysOf_insert {d : Snapshot} {k : FPath} {v : ℚ} {q : FPath}
    (h : q ∈ keysOf (dictInsert d k v)) : q ∈ keysOf d ∨ q = k := by
  unfold dictInsert at h
  by_cases hk : hasKeyB d k = true
  · rw [if_pos hk] at h
    rcases mem_keysOf.mp h with ⟨w, hw⟩
    rcases List.mem_map.mp hw with ⟨⟨a, b⟩, hab, heq⟩
    by_cases hak : a = k
    · simp only [hak, if_pos rfl] at heq
      exact Or.inr (congrArg Prod.fst heq).symm
    · simp only [if_neg hak] at heq
      obtain rfl : a = q := congrArg Prod.fst heq
      exact Or.inl (mem_keysOf.mpr ⟨b, hab⟩)
  · rw [if_neg hk] at h
    rcases mem_keysOf.mp h with ⟨w, hw⟩
    rcases List.mem_append.mp hw with hw | hw
    · exact Or.inl (mem_keysOf.mpr ⟨w, hw⟩)
    · rcases List.mem_singleton.mp hw with heq
      exact Or.inr (congrArg Prod.fst heq)

theorem checkScan_snd_keys_sub {scan known : Snapshot} {q : FPath}
    (h : q ∈ keysOf (checkScan known scan).2) :
    q ∈ keysOf known ∨ q ∈ keysOf scan := by
  induction scan generalizing known with
  | nil => exact Or.inl h
  | cons a rest ih =>
    obtain ⟨k, v⟩ := a
    rw [keysOf_cons]
    cases hl : dictLookup known k with
    | some old =>
      by_cases hov : old < v
      · simp only [checkScan, hl, if_pos hov] at h
        rcases ih h with hk2 | hk2
        · rcases mem_keysOf_insert hk2 with hk3 | hk3
          · exact Or.inl hk3
          · exact Or.inr (List.mem_cons.mpr (Or.inl hk3))
        · exact Or.inr (List.mem_cons.mpr (Or.inr hk2))
      · simp only [checkScan, hl, if_neg hov] at h
        rcases ih h with hk2 | hk2
        · exact Or.inl hk2
        · exact Or.inr (List.mem_cons.mpr (Or.inr hk2))
    | none =>
      simp only [checkScan, hl] at h
      rcases ih h with hk2 | hk2
      · rcases mem_keysOf_insert hk2 with hk3 | hk3
        · exact Or.inl hk3
        · exact Or.inr (List.mem_cons.mpr (Or.inl hk3))
      · exact Or.inr (List.mem_cons.mpr (Or.inr hk2))

theorem check_fst_key_mem {scan known : Snapshot} {q : FPath} {c : String}
    (h : (q, c) ∈ (check known scan).1) :
    q ∈ keysOf scan ∨ q ∈ keysOf known := by
  unfold check at h
  simp only [List.mem_append] at h
  rcases h with h | h
  · exact Or.inl (checkScan_fst_key_mem h)
  · rcases List.mem_map.mp h with ⟨k', hk', heq⟩
    have hkq : k' = q := congrArg Prod.fst heq
    rw [← hkq]
    rcases List.mem_map.mp hk' with ⟨⟨a, b⟩, hab, hfst⟩
    simp only at hfst
    rw [List.mem_filter] at hab
    have hmem2 : k' ∈ keysOf (checkScan known scan).2 := by
      rw [← hfst]
      exact mem_keysOf.mpr ⟨b, hab.1⟩
    rcases checkScan_snd_keys_sub hmem2 with hk2 | hk2
    · exact Or.inr hk2
    · exact Or.inl hk2

/-! ### Rate limiter lemmas -/

theorem mem_pruneWindow {now : ℚ} {ts : List ℚ} {t : ℚ} :
    t ∈ pruneWindow now ts ↔ t ∈ ts ∧ now - t < rateLimitWindow := by
  simp [pruneWindow, List.mem_filter]

theorem pruneWindow_sorted {now : ℚ} {ts : List ℚ}
    (h : List.Sorted (· ≤ ·) ts) :
    List.Sorted (· ≤ ·) (pruneWindow now ts) :=
  List.Pairwise.filter _ h

theorem pruneWindow_length_le (now : ℚ) (ts : List ℚ) :
    (pruneWindow now ts).length ≤ ts.length :=
  List.length_filter_le _ ts

theorem rateLimitCheck_eq_delay {now : ℚ} {ts : List ℚ}
    (hbig : maxMessagesPerWindow ≤ (pruneWindow now ts).length)
    (hsleep : 0 < rateLimitWindow - (now - (pruneWindow now ts).headD 0)) :
    rateLimitCheck now ts =
      (now + (rateLimitWindow - (now - (pruneWindow now ts).headD 0)),
       pruneWindow (now + (rateLimitWindow - (now - (pruneWindow now ts).headD 0)))
           (pruneWindow now ts)
         ++ [now + (rateLimitWindow - (now - (pruneWindow now ts).headD 0))]) := by
  simp only [rateLimitCheck]
  rw [if_pos hbig, if_pos hsleep]

theorem rateLimitCheck_eq_no_delay {now : ℚ} {ts : List ℚ}
    (hsmall : ¬ maxMessagesPerWindow ≤ (pruneWindow now ts).length) :
    rateLimitCheck now ts = (now, pruneWindow now ts ++ [now]) := by
  simp only [rateLimitCheck]
  rw [if_neg hsmall]

/-! ### Claim theorems -/

/-- C3: at every admission decision of `_rate_limit_check`, timestamps
older than the 1-second window are pruned before the decision (the decision
and the retained list are functions of `pruneWindow now ts`); when the
retained count has reached the cap of 20, the caller is delayed until the
oldest retained entry exits the window (admission happens at
`oldest + window`), otherwise admission is immediate; and the window never
retains more admitted attempts than the cap: starting from a sorted
timestamp list bounded by `now` with at most 20 entries, every retained
timestamp of the new list is strictly within the window of the admission
instant and the new list again has at most 20 entries (the invariant is
preserved, together with sortedness and boundedness by the new clock). -/
theorem rate_limiter_admission (now : ℚ) (ts : List ℚ)
    (hsort : List.Sorted (· ≤ ·) ts) (hle : ∀ t ∈ ts, t ≤ now)
    (hcap : ts.length ≤ maxMessagesPerWindow) :
    (∀ t ∈ (rateLimitCheck now ts).2,
      (rateLimitCheck now ts).1 - t < rateLimitWindow) ∧
    (rateLimitCheck now ts).2.length ≤ maxMessagesPerWindow ∧
    (maxMessagesPerWindow ≤ (pruneWindow now ts).length →
      (rateLimitCheck now ts).1 =
        (pruneWindow now ts).headD 0 + rateLimitWindow) ∧
    ((pruneWindow now ts).length < maxMessagesPerWindow →
      (rateLimitCheck now ts).1 = now) ∧
    List.Sorted (· ≤ ·) (rateLimitCheck now ts).2 ∧
    now ≤ (rateLimitCheck now ts).1 ∧
    (∀ t ∈ (rateLimitCheck now ts).2, t ≤ (rateLimitCheck now ts).1) := by
  have hwin : ∀ t ∈ pruneWindow now ts, now - t < rateLimitWindow :=
    fun t ht => (mem_pruneWindow.mp ht).2
  have hsub : ∀ t ∈ pruneWindow now ts, t ∈ ts :=
    fun t ht => (mem_pruneWindow.mp ht).1
  have hsort1 : List.Sorted (· ≤ ·) (pruneWindow now ts) :=
    pruneWindow_sorted hsort
  have hlen1 : (pruneWindow now ts).length ≤ ts.length :=
    pruneWindow_length_le now ts
  by_cases hbig : maxMessagesPerWindow ≤ (pruneWindow now ts).length
  · have hne : pruneWindow now ts ≠ [] := by
      intro h
      rw [h] at hbig
      simp [maxMessagesPerWindow] at hbig
    obtain ⟨h0, tl, he⟩ := List.exists_cons_of_ne_nil hne
    have hheadD : (pruneWindow now ts).headD 0 = h0 := by rw [he]; rfl
    have h0mem : h0 ∈ pruneWindow now ts := by
      rw [he]; exact List.mem_cons_self _ _
    have h0win : now - h0 < rateLimitWindow := hwin h0 h0mem
    have hsleep : 0 < rateLimitWindow - (now - (pruneWindow now ts).headD 0) := by
      rw [hheadD]; linarith
    rw [rateLimitCheck_eq_delay hbig hsleep]
    rw [hheadD]
    have hnow2 : now + (rateLimitWindow - (now - h0)) = h0 + rateLimitWindow := by
      ring
    rw [hnow2]
    have hnle : now ≤ h0 + rateLimitWindow := by linarith
    have hts2 : pruneWindow (h0 + rateLimitWindow) (pruneWindow now ts) =
        pruneWindow (h0 + rateLimitWindow) tl := by
      rw [he]
      unfold pruneWindow
      rw [List.filter_cons]
      have hnot : ¬ (h0 + rateLimitWindow - h0 < rateLimitWindow) := by
        intro h; linarith
      simp [hnot]
    rw [hts2]
    dsimp only
    have htlmem : ∀ t ∈ pruneWindow (h0 + rateLimitWindow) tl, t ∈ ts := by
      intro t ht
      have : t ∈ tl := (mem_pruneWindow.mp ht).1
      exact hsub t (by rw [he]; exact List.mem_cons_of_mem _ this)
    refine ⟨?_, ?_, ?_, ?_, ?_, hnle, ?_⟩
    · intro t ht
      rcases List.mem_append.mp ht with ht | ht
      · exact (mem_pruneWindow.mp ht).2
      · rcases List.mem_singleton.mp ht with rfl
        simp [rateLimitWindow]
    · have h1 : (pruneWindow (h0 + rateLimitWindow) tl).length ≤ tl.length :=
        pruneWindow_length_le _ tl
      have h2 : tl.length + 1 ≤ maxMessagesPerWindow := by
        have := hcap
        rw [he] at hlen1
        simp only [List.length_cons] at hlen1
        omega
      simp only [List.length_append, List.length_singleton]
      omega
    · intro _
      rfl
    · intro h
      exact absurd hbig (not_le.mpr h)
    · refine List.pairwise_append.mpr ⟨pruneWindow_sorted ?_, by simp, ?_⟩
      · have h2 := hsort1
        rw [he] at h2
        exact (List.sorted_cons.mp h2).2
      · intro a ha b hb
        rcases List.mem_singleton.mp hb with rfl
        have : a ≤ now := hle a (htlmem a ha)
        linarith
    · intro t ht
      rcases List.mem_append.mp ht with ht | ht
      · have : t ≤ now := hle t (htlmem t ht)
        linarith
      · rcases List.mem_singleton.mp ht with rfl
        exact le_refl _
  · rw [rateLimitCheck_eq_no_delay hbig]
    dsimp only
    refine ⟨?_, ?_, ?_, ?_, ?_, le_refl _, ?_⟩
    · intro t ht
      rcases List.mem_append.mp ht with ht | ht
      · exact hwin t ht
      · rcases List.mem_singleton.mp ht with rfl
        simp [rateLimitWindow]
    · rw [not_le] at hbig
      simp only [List.length_append, List.length_singleton]
      omega
    · intro h
      exact absurd h hbig
    · intro _
      rfl
    · refine List.pairwise_append.mpr ⟨hsort1, by simp, ?_⟩
      intro a ha b hb
      rcases List.mem_singleton.mp hb with rfl
      exact hle a (hsub a ha)
    · intro t ht
      rcases List.mem_append.mp ht with ht | ht
      · exact hle t (hsub t ht)
      · rcases List.mem_singleton.mp ht with rfl
        exact le_refl _

/-- C3 witness: a full window of 20 timestamps at 0 with the clock at 1/2;
the admission is delayed to instant 1 (= oldest + window) and the cap holds. -/
theorem rate_limiter_admission_witness :
    List.Sorted (· ≤ ·) (List.replicate 20 (0 : ℚ)) ∧
    (∀ t ∈ List.replicate 20 (0 : ℚ), t ≤ 0) ∧
    (List.replicate 20 (0 : ℚ)).length ≤ maxMessagesPerWindow ∧
    (rateLimitCheck 0 (List.replicate 20 0)).2.length ≤
      maxMessagesPerWindow ∧
    (maxMessagesPerWindow ≤ (pruneWindow 0 (List.replicate 20 0)).length →
      (rateLimitCheck 0 (List.replicate 20 0)).1 =
        (pruneWindow 0 (List.replicate 20 0)).headD 0 +
          rateLimitWindow) :=
  ⟨by decide, by decide, by decide,
   (rate_limiter_admission 0 (List.replicate 20 0) (by decide)
     (by decide) (by decide)).2.1,
   (rate_limiter_admission 0 (List.replicate 20 0) (by decide)
     (by decide) (by decide)).2.2.1⟩

/-- C4: in `_speak`, a transient failure (`TimedOut` / `NetworkError`) is
retried up to 3 attempts total with backoff sleeps of 1 then 2 (doubling);
three transient failures raise the error to the caller with no delivery;
a success on attempt `j` after `j` transient failures delivers exactly once,
surfaces no error, and the observed backoff sleeps are `1, 2, ...` in
increasing order (`2^i` for `i < j`). -/
theorem speak_transient_retry_policy (f : ℕ → SendOutcome) :
    ((f 0).isTransient = true → (f 1).isTransient = true →
      (f 2).isTransient = true →
      speak f = ⟨.raised, 0, 3, [1, 2]⟩) ∧
    (∀ j : ℕ, j < 3 → (∀ k, k < j → (f k).isTransient = true) →
      f j = .success →
      speak f = ⟨.delivered, 1, j + 1,
        (List.range j).map (fun i => (2 : ℚ) ^ i)⟩) := by
  have htr : ∀ g : SendOutcome, g.isTransient = true →
      g = .timedOut ∨ g = .networkError := by
    intro g hg
    cases g with
    | timedOut => exact Or.inl rfl
    | networkError => exact Or.inr rfl
    | success => exact absurd hg (by simp [SendOutcome.isTransient])
    | retryAfter n => exact absurd hg (by simp [SendOutcome.isTransient])
    | telegramError => exact absurd hg (by simp [SendOutcome.isTransient])
    | otherError => exact absurd hg (by simp [SendOutcome.isTransient])
  constructor
  · intro h0 h1 h2
    rcases htr _ h0 with h0 | h0 <;> rcases htr _ h1 with h1 | h1 <;>
      rcases htr _ h2 with h2 | h2 <;>
      simp [speak, speakGo, maxRetries, h0, h1, h2]
  · intro j hj hk hs
    interval_cases j
    · simp [speak, speakGo, maxRetries, hs]
    · rcases htr _ (hk 0 (by omega)) with h0 | h0 <;>
        simp [speak, speakGo, maxRetries, h0, hs, List.range_succ]
    · rcases htr _ (hk 0 (by omega)) with h0 | h0 <;>
        rcases htr _ (hk 1 (by omega)) with h1 | h1 <;>
        simp [speak, speakGo, maxRetries, h0, h1, hs, List.range_succ]

/-- C4 witness: three timeouts raise with sleeps `[1, 2]`; two timeouts then
a success deliver once with the same increasing backoff sleeps. -/
theorem speak_transient_retry_policy_witness :
    speak (fun _ => SendOutcome.timedOut) = ⟨.raised, 0, 3, [1, 2]⟩ ∧
    speak (fun k => if k < 2 then SendOutcome.timedOut
        else SendOutcome.success) =
      ⟨.delivered, 1, 2 + 1, (List.range 2).map (fun i => (2 : ℚ) ^ i)⟩ :=
  ⟨(speak_transient_retry_policy _).1 rfl rfl rfl,
   (speak_transient_retry_policy _).2 2 (by omega)
     (fun k hk => by interval_cases k <;> rfl) rfl⟩

/-- C5 counterexample: `RetryAfter` IS counted against the 3-attempt budget
of `_speak`, contradicting the claim that retry-after-triggered attempts
are uncapped and uncounted.  First run: one `RetryAfter` followed by two
transient failures raises after 3 attempts with no delivery — under the
claim the retry-after attempt would not consume the budget and the later
`success` outcome would be reached.  Second run: three `RetryAfter`
outcomes exhaust the loop after exactly 3 attempts, after which `_speak`
returns with no delivery and no raised error, instead of retrying
indefinitely. -/
theorem speak_retry_after_capped_counterexample :
    speak (fun k => match k with
        | 0 => SendOutcome.retryAfter 7
        | 1 => SendOutcome.timedOut
        | 2 => SendOutcome.timedOut
        | _ => SendOutcome.success) = ⟨.raised, 0, 3, [7, 1]⟩ ∧
    speak (fun _ => SendOutcome.retryAfter 5) =
      ⟨.exhausted, 0, 3, [5, 5, 5]⟩ := by
  constructor <;> rfl

/-- C5 (amended): on `RetryAfter n` the Notifier sleeps exactly `n` and
retries the same send, but each such retry consumes one of the 3 attempts
of the shared loop budget; a send whose first attempt hits `RetryAfter n`
and whose second succeeds delivers once after sleeping exactly `n`, while
three `RetryAfter` outcomes exhaust the loop, which then returns silently
(no delivery, no raised error) after exactly 3 attempts. -/
theorem speak_retry_after_policy (f : ℕ → SendOutcome) :
    (∀ n : ℚ, f 0 = .retryAfter n → f 1 = .success →
      speak f = ⟨.delivered, 1, 2, [n]⟩) ∧
    (∀ a b c : ℚ, f 0 = .retryAfter a → f 1 = .retryAfter b →
      f 2 = .retryAfter c →
      speak f = ⟨.exhausted, 0, 3, [a, b, c]⟩) := by
  constructor
  · intro n h0 h1
    simp [speak, speakGo, maxRetries, h0, h1]
  · intro a b c h0 h1 h2
    simp [speak, speakGo, maxRetries, h0, h1, h2]

/-- C5 witness for the amended statement. -/
theorem speak_retry_after_policy_witness :
    speak (fun k => if k = 0 then SendOutcome.retryAfter 9
        else SendOutcome.success) = ⟨.delivered, 1, 2, [9]⟩ ∧
    speak (fun _ => SendOutcome.retryAfter 4) =
      ⟨.exhausted, 0, 3, [4, 4, 4]⟩ :=
  ⟨(speak_retry_after_policy _).1 9 rfl rfl,
   (speak_retry_after_policy _).2 4 4 4 rfl rfl rfl⟩

/-- C1: `check` classifies every path exactly as specified: a record
`(q, c)` is produced iff `c = "new"` with `q` in the scan but not the
index, or `c = "modified"` with `q` in both and the scan timestamp strictly
greater, or `c = "deleted"` with `q` in the index but not the scan (so an
equal-or-lesser timestamp produces no record and no other records exist);
moreover the index is updated accordingly: new paths are inserted with the
scan timestamp, modified paths get the scan timestamp, and deleted paths
are removed. -/
theorem check_classification {scan known : Snapshot}
    (hscan : (keysOf scan).Nodup) (q : FPath) (c : String) :
    ((q, c) ∈ (check known scan).1 ↔
      ((∃ v, dictLookup scan q = some v) ∧ dictLookup known q = none ∧
        c = "new") ∨
      ((∃ v old, dictLookup scan q = some v ∧
        dictLookup known q = some old ∧ old < v) ∧ c = "modified") ∨
      (dictLookup scan q = none ∧ (∃ old, dictLookup known q = some old) ∧
        c = "deleted")) ∧
    (dictLookup known q = none → ∀ v, dictLookup scan q = some v →
      dictLookup (check known scan).2 q = some v) ∧
    (∀ v old, dictLookup scan q = some v → dictLookup known q = some old →
      old < v → dictLookup (check known scan).2 q = some v) ∧
    (dictLookup scan q = none → dictLookup (check known scan).2 q = none) := by
  refine ⟨check_fst_iff hscan known q c, ?_, ?_, ?_⟩
  · intro hnone v hv
    rw [check_snd_lookup hscan, hv, hnone]
  · intro v old hv hold hlt
    rw [check_snd_lookup hscan, hv, hold]
    simp [max_eq_right (le_of_lt hlt)]
  · intro hnone
    rw [check_snd_lookup hscan, hnone]

/-- C1 witness: on a concrete index and scan the classification applies;
the deleted key is indeed removed from the index. -/
theorem check_classification_witness :
    (keysOf [(["a"], (2 : ℚ))]).Nodup ∧
    dictLookup (check [(["b"], (1 : ℚ))] [(["a"], (2 : ℚ))]).2 ["b"] =
      none :=
  ⟨by decide,
   (@check_classification [(["a"], (2 : ℚ))] [(["b"], (1 : ℚ))]
     (by decide) ["b"] "deleted").2.2.2 (by decide)⟩

/-- C2: calling `check` twice against the same scan snapshot (no filesystem
change between the calls) yields an empty change set on the second call:
no-op ticks are idempotent. -/
theorem check_noop_idempotent {scan : Snapshot}
    (hscan : (keysOf scan).Nodup) (known : Snapshot) :
    (check (check known scan).2 scan).1 = [] :=
  check_twice hscan known

/-- C2 witness: a concrete second no-change tick reports nothing. -/
theorem check_noop_idempotent_witness :
    (keysOf [(["a"], (2 : ℚ)), (["b"], 3)]).Nodup ∧
    (check (check [(["a"], (1 : ℚ))] [(["a"], (2 : ℚ)), (["b"], 3)]).2
      [(["a"], (2 : ℚ)), (["b"], 3)]).1 = [] :=
  ⟨by decide, check_noop_idempotent (by decide) _⟩

/-- C8 counterexample: when the observed timestamp (3) is lower than the
stored one (5), `check` leaves the stored timestamp at 5, so the index
after the call does not equal the scan snapshot, contradicting the claim
that for every key the stored timestamp equals the timestamp observed in
that scan "including when a file's observed timestamp is lower than the
stored one". -/
theorem check_index_stale_counterexample :
    (check [(["a"], (5 : ℚ))] [(["a"], (3 : ℚ))]).1 = [] ∧
    dictLookup (check [(["a"], (5 : ℚ))] [(["a"], (3 : ℚ))]).2 ["a"] =
      some 5 ∧
    dictLookup [(["a"], (3 : ℚ))] ["a"] = some 3 ∧ (5 : ℚ) ≠ 3 := by
  refine ⟨by decide, by decide, by decide, by norm_num⟩

/-- C8 (amended): after `check`, the key set of the index equals the key
set of that call's scan, and for every surviving key the stored timestamp
is the maximum of the previously stored and the observed timestamp — the
scan's value, except when the observed timestamp is lower than the stored
one, in which case the higher stored value is retained. -/
theorem check_index_after {scan : Snapshot}
    (hscan : (keysOf scan).Nodup) (known : Snapshot) (q : FPath) :
    (dictLookup (check known scan).2 q =
      match dictLookup scan q, dictLookup known q with
      | some v, some old => some (max old v)
      | some v, none => some v
      | none, _ => none) ∧
    ((dictLookup (check known scan).2 q).isSome ↔
      (dictLookup scan q).isSome) := by
  refine ⟨check_snd_lookup hscan known q, ?_⟩
  rw [check_snd_lookup hscan known q]
  cases dictLookup scan q <;> cases dictLookup known q <;> simp

/-- C8 amended-statement witness: the stale-timestamp key keeps the stored
maximum. -/
theorem check_index_after_witness :
    (keysOf [(["a"], (3 : ℚ))]).Nodup ∧
    (dictLookup (check [(["a"], (5 : ℚ))] [(["a"], (3 : ℚ))]).2 ["a"] =
      match dictLookup [(["a"], (3 : ℚ))] ["a"],
          dictLookup [(["a"], (5 : ℚ))] ["a"] with
      | some v, some old => some (max old v)
      | some v, none => some v
      | none, _ => none) :=
  ⟨by decide,
   (@check_index_after [(["a"], (3 : ℚ))] (by decide)
     [(["a"], (5 : ℚ))] ["a"]).1⟩

/-- C6 (code defect): `Directory.__init__` only logs an error on a negative
recursion limit and still constructs the watcher — construction does not
fail, and the instance carries the negative limit (with which the initial
scan still runs, collecting root-level files).  The spec requires rejection
at construction. -/
theorem directoryInit_accepts_negative_limit :
    (DirectoryInit [] none (some (-1))).recursionLimit = some (-1) ∧
    (DirectoryInit [FSEntry.file "a" ".txt" 1] none
      (some (-1))).knownFiles = [(["a"], 1)] := by
  refine ⟨rfl, ?_⟩
  simp [DirectoryInit, descendDirectory, extOK]

/-- C7: a path appears in a scan under extension set `E` and recursion
limit `L` iff the tree holds a file there whose suffix is in `E` and whose
directory depth is within `L` (the traversal descends into a subdirectory
at depth `d` iff `d + 1 ≤ L`); every change record's path comes from the
current scan or from the index; and with `recursionLimit = 1` a file at
depth 2 is never scanned and never produces an event. -/
theorem check_respects_filters :
    (∀ (E : List String) (L : ℤ) (entries : List FSEntry) (p : FPath)
      (t : ℚ),
      (p, t) ∈ descendDirectory (some E) (some L) entries 0 ↔
        ∃ s d', FileEntryAtDepth entries d' p s t ∧ s ∈ E ∧
          (d' = 0 ∨ (d' : ℤ) ≤ L)) ∧
    (∀ (known scan : Snapshot) (q : FPath) (c : String),
      (q, c) ∈ (check known scan).1 →
        q ∈ keysOf scan ∨ q ∈ keysOf known) ∧
    ((DirectoryInit [FSEntry.dir "a" [FSEntry.dir "b"
        [FSEntry.file "f.txt" ".txt" 5]]] none (some 1)).check
      [FSEntry.dir "a" [FSEntry.dir "b" [FSEntry.file "f.txt" ".txt" 5]]] =
      ([], DirectoryInit [FSEntry.dir "a" [FSEntry.dir "b"
        [FSEntry.file "f.txt" ".txt" 5]]] none (some 1))) := by
  refine ⟨?_, fun known scan q c h => check_fst_key_mem h, by
    simp [DirectoryW.check, DirectoryInit, descendDirectory, descendOK,
      check, checkScan, hasKeyB]⟩
  intro E L entries p t
  constructor
  · intro h
    obtain ⟨s, d', hrel, hext, hbound⟩ := descend_sound _ _ entries 0 p t h
    refine ⟨s, d', hrel, ?_, ?_⟩
    · simpa [extOK] using hext
    · rcases hbound L rfl with h0 | hb
      · exact Or.inl h0
      · refine Or.inr ?_
        push_cast at hb
        omega
  · rintro ⟨s, d', hrel, hsE, hbound⟩
    refine descend_complete hrel ?_ 0 ?_
    · simpa [extOK] using hsE
    · intro l hl
      obtain rfl : l = L := by injection hl with h; exact h.symm
      rcases hbound with h0 | hb
      · exact Or.inl h0
      · refine Or.inr ?_
        push_cast
        omega

/-- C7 witness: a concrete change record's path lies in the scan keys. -/
theorem check_respects_filters_witness :
    ((["x"], "new") ∈ (check [] [(["x"], (1 : ℚ))]).1) ∧
    (["x"] ∈ keysOf [(["x"], (1 : ℚ))] ∨ ["x"] ∈ keysOf ([] : Snapshot)) :=
  ⟨by decide,
   check_respects_filters.2.1 [] [(["x"], 1)] ["x"] "new" (by decide)⟩

theorem filterMap_eq_nil_iff_any (changes : List (String × String))
    (key : String) (f : String × String → String) :
    ((changes.filter (fun pc => pc.2 = key)).map f = []) ↔
      changes.any (fun pc => pc.2 = key) = false := by
  rw [List.map_eq_nil_iff, List.filter_eq_nil_iff]
  simp [List.any_eq_false]

/-- C9: the composer produces no message for an empty change list; for a
non-empty list it produces exactly one message whose parts are the header
(stating the total count), the divider, and then only the non-empty groups
in the fixed order New, Modified, Deleted; on two `new` records and one
`deleted` record the message has a header stating 3, a New section with 2
path lines, a Deleted section with 1 path line, and no Modified section. -/
theorem compose_message_spec :
    (∀ name, composeParts name [] = none) ∧
    (∀ name changes, changes ≠ [] →
      ∃ parts, composeParts name changes = some parts ∧
        parts.length = 2 +
          (if changes.any (fun pc => pc.2 = "new") then 1 else 0) +
          (if changes.any (fun pc => pc.2 = "modified") then 1 else 0) +
          (if changes.any (fun pc => pc.2 = "deleted") then 1 else 0)) ∧
    (composeParts "bot" [("a.txt", "new"), ("b.txt", "new"),
        ("c.txt", "deleted")] =
      some ["📁 *bot* detected 3 changes", divider,
        "✨ *New* \\(2\\)\n    `a\\.txt`\n    `b\\.txt`",
        "🗑 *Deleted* \\(1\\)\n    `c\\.txt`"]) := by
  refine ⟨fun name => rfl, ?_, by rfl⟩
  intro name changes hne
  unfold composeParts
  rw [if_neg hne]
  refine ⟨_, rfl, ?_⟩
  cases hA : changes.any (fun pc => pc.2 = "new") <;>
    cases hB : changes.any (fun pc => pc.2 = "modified") <;>
      cases hC : changes.any (fun pc => pc.2 = "deleted") <;>
        (simp only [ne_eq, filterMap_eq_nil_iff_any, hA, hB, hC]; simp)

/-- C9 witness: a one-record change list composes to a message with header,
divider and exactly one group section. -/
theorem compose_message_spec_witness :
    ([(("x.txt" : String), ("new" : String))] ≠ []) ∧
    (∃ parts, composeParts "n" [("x.txt", "new")] = some parts ∧
      parts.length = 2 +
        (if [(("x.txt" : String), ("new" : String))].any
            (fun pc => pc.2 = "new") then 1 else 0) +
        (if [(("x.txt" : String), ("new" : String))].any
            (fun pc => pc.2 = "modified") then 1 else 0) +
        (if [(("x.txt" : String), ("new" : String))].any
            (fun pc => pc.2 = "deleted") then 1 else 0)) :=
  ⟨by decide, compose_message_spec.2.1 "n" _ (by decide)⟩

/-- C10: `_check_directories` on a bot with an empty directory list always
fails: `min(len(directories), 5) = 0` and the thread pool construction
raises `ValueError` before any scanning or composing; with at least one
directory the tick succeeds. -/
theorem checkDirectories_empty_raises :
    (∀ name, checkDirectories name [] =
      Except.error "ValueError: max_workers must be greater than 0") ∧
    (∀ name dirs, dirs ≠ [] →
      ∃ r, checkDirectories name dirs = Except.ok r) := by
  constructor
  · intro name
    rfl
  · intro name dirs hne
    have hlen : 0 < dirs.length := List.length_pos.mpr hne
    have hcond : ¬ (min dirs.length 5 ≤ 0) := by omega
    unfold checkDirectories
    rw [if_neg hcond]
    exact ⟨_, rfl⟩

/-- C10 witness: a one-watcher tick does not error. -/
theorem checkDirectories_empty_raises_witness :
    ([(DirectoryInit [] none none, ([] : List FSEntry))] ≠ []) ∧
    (∃ r, checkDirectories "b" [(DirectoryInit [] none none, [])] =
      Except.ok r) :=
  ⟨List.cons_ne_nil _ _,
   checkDirectories_empty_raises.2 "b" _ (List.cons_ne_nil _ _)⟩

end Telefilebot
